import Mathlib

/-!
Shallow embedding of the configuration subsystem of nmtpytorch
(`src/nmtpytorch/config.py`).

Modelling conventions:
* Python strings are lists of characters (`Str`); ASCII case functions.
* Python dicts are insertion-ordered association lists (`dGet`/`dSet`),
  matching CPython 3.7+ dict semantics.
* Python floats are exact decimals in canonical form: an integer
  mantissa (not divisible by 10 unless the exponent is 0) paired with a
  power-of-ten denominator exponent.  Every float in the modelled
  configuration values comes from a decimal literal in shortest repr
  form, and CPython repr/parse round-trips doubles exactly, so on this
  domain the decimal model agrees with IEEE evaluation, including
  equality and the difflib ratio comparisons (which are modelled as
  exact fraction comparisons; the denominators involved are far too
  small for IEEE rounding to change any comparison).
* Raised exceptions become `Except PyExc` errors; `sys.exit(1)` after
  printing diagnostics becomes the `PyExc.exitNonzero` error carrying the
  printed messages, and in-place mutation of a caller-supplied dict is
  modelled by returning the post-call state of that dict.
* A configuration file is modelled after parsing, as its ordered list of
  sections with raw string values (`CfgFile`).  The model covers files
  with no DEFAULT section and whose values contain no interpolation
  placeholder (no dollar sign): the features of `configparser` that no
  claim exercises.  Key lower-casing (`optionxform`) is included.
-/

set_option maxRecDepth 8000

abbrev Str := List Char

def chars (s : String) : Str := s.data

/-- Python `str.lower` (ASCII domain). -/
def toLowerStr (s : Str) : Str := s.map Char.toLower

/-- Python `str.capitalize`: first character upper-cased, the rest
lower-cased (ASCII domain). -/
def pyCapitalize : Str → Str
  | [] => []
  | c :: rest => Char.toUpper c :: rest.map Char.toLower

/-- Python `str.startswith` for a single candidate. -/
def strStarts (p s : Str) : Bool := List.isPrefixOf p s

/-- The tuple check `str.startswith(("False", "True", "None"))` on line 83
of config.py. -/
def startsBoolNone (s : Str) : Bool :=
  strStarts (chars "False") s || strStarts (chars "True") s ||
    strStarts (chars "None") s

/-- Python `s.split(c)` for a one-character separator. -/
def splitCh (c : Char) : Str → List Str
  | [] => [[]]
  | x :: xs =>
    let r := splitCh c xs
    if x = c then [] :: r
    else
      match r with
      | h :: t => (x :: h) :: t
      | [] => [[x]]

/-- Python `s.split(c, 1)`: `none` when the separator is absent (so that
unpacking into two variables raises ValueError). -/
def splitChOnce (c : Char) : Str → Option (Str × Str)
  | [] => none
  | x :: xs =>
    if x = c then some ([], xs)
    else (splitChOnce c xs).map (fun p => (x :: p.1, p.2))

/-- Python `s.count(c)`. -/
def countCh (c : Char) (s : Str) : Nat := s.countP (fun x => x = c)

/-- Python lexicographic string comparison (by character code). -/
def strLt : Str → Str → Bool
  | [], [] => false
  | [], _ :: _ => true
  | _ :: _, [] => false
  | x :: xs, y :: ys =>
    if x.toNat < y.toNat then true
    else if y.toNat < x.toNat then false
    else strLt xs ys

/-- Decimal digits of a natural number, most significant first. -/
def natCharsGo (fuel : Nat) (n : Nat) (acc : Str) : Str :=
  match fuel with
  | 0 => acc
  | f + 1 =>
    if n = 0 then acc
    else natCharsGo f (n / 10) (Char.ofNat (48 + n % 10) :: acc)

def natChars (n : Nat) : Str :=
  if n = 0 then ['0'] else natCharsGo (n + 1) n []

/-- Python `str` of an int. -/
def intChars (i : Int) : Str :=
  if i < 0 then '-' :: natChars i.natAbs else natChars i.natAbs

/-- Typed configuration values (section 3 of the spec): the result of
coercion.  The constructor `path` models a `pathlib.Path` produced by
`Path(s).expanduser().resolve()`; the resolution itself depends on the
filesystem and is kept symbolic (the original text is retained). -/
inductive Value where
  | bool (b : Bool)
  | none
  | int (i : Int)
  | float (num : Int) (den10 : Nat)
  | str (s : Str)
  | path (s : Str)
  | list (l : List Value)
  | dict (d : List (Str × Value))

instance {ε α : Type} [DecidableEq ε] [DecidableEq α] :
    DecidableEq (Except ε α) := fun a b =>
  match a, b with
  | .ok x, .ok y =>
    if h : x = y then isTrue (by rw [h])
    else isFalse (by intro hc; cases hc; exact h rfl)
  | .error x, .error y =>
    if h : x = y then isTrue (by rw [h])
    else isFalse (by intro hc; cases hc; exact h rfl)
  | .ok _, .error _ => isFalse (by intro hc; cases hc)
  | .error _, .ok _ => isFalse (by intro hc; cases hc)

/-- The path test of `resolve_path` (config.py line 70):
`value.startswith(("~", "/", "../", "./"))`. -/
def isPathStr (s : Str) : Bool :=
  strStarts (chars "~") s || strStarts (chars "/") s ||
    strStarts (chars "../") s || strStarts (chars "./") s

mutual

/-- Source `resolve_path` (config.py lines 65-72): recursively replace
path-like strings by resolved `Path` objects, descending into lists and
into the values (not the keys) of dicts. -/
def resolve_path : Value → Value
  | .str s => if isPathStr s then .path s else .str s
  | .list l => .list (resolvePathList l)
  | .dict d => .dict (resolvePathDict d)
  | v => v

def resolvePathList : List Value → List Value
  | [] => []
  | v :: t => resolve_path v :: resolvePathList t

def resolvePathDict : List (Str × Value) → List (Str × Value)
  | [] => []
  | (k, v) :: t => (k, resolve_path v) :: resolvePathDict t

end

/-- Application of `resolve_path` to the raw string of an override value
(config.py line 103), before coercion. -/
def resolvePathStr (s : Str) : Value :=
  if isPathStr s then .path s else .str s

def splitSign : Str → (Bool × Str)
  | '-' :: r => (true, r)
  | '+' :: r => (false, r)
  | s => (false, s)

/-- First occurrence of an exponent marker `e`/`E`. -/
def splitExpOnce : Str → Option (Str × Str)
  | [] => none
  | x :: xs =>
    if x = 'e' || x = 'E' then some ([], xs)
    else (splitExpOnce xs).map (fun p => (x :: p.1, p.2))

def allDigits (l : Str) : Bool := l.all Char.isDigit

def digitsVal (l : Str) : Nat := l.foldl (fun a c => a * 10 + (c.toNat - 48)) 0

def parseExpPart (l : Str) : Option Int :=
  let (eneg, d) := splitSign l
  if d ≠ [] && allDigits d then
    some (if eneg then -(digitsVal d : Int) else (digitsVal d : Int))
  else none

/-- Canonical decimal form: strip common factors of ten from the
mantissa and the denominator exponent (fuel-based; `fuel = d + 1` always
suffices), sending zero to `(0, 0)`. -/
def canonDec (fuel m d : Nat) : Nat × Nat :=
  match fuel with
  | 0 => (m, d)
  | f + 1 =>
    if m = 0 then (0, 0)
    else if d = 0 then (m, 0)
    else if m % 10 = 0 then canonDec f (m / 10) (d - 1)
    else (m, d)

/-- The exact decimal value `(-1)^neg * m * 10^(e - fracLen)` as a
canonical `Value.float`. -/
def decFloat (neg : Bool) (m : Nat) (fracLen : Nat) (e : Int) : Value :=
  let t : Int := e - (fracLen : Int)
  let raw : Nat × Nat :=
    if 0 ≤ t then (m * 10 ^ t.toNat, 0) else (m, (-t).toNat)
  let nd := canonDec (raw.2 + 1) raw.1 raw.2
  .float (if neg then -(nd.1 : Int) else (nd.1 : Int)) nd.2

def intOf (neg : Bool) (n : Nat) : Int :=
  if neg then -(n : Int) else (n : Int)

/-- Fragment of Python `ast.literal_eval` sufficient for the configuration
values the claims exercise: optionally signed decimal integer and float
literals.  Other literal forms (quoted strings, container displays, hex
or binary integers, digit underscores) are outside the modelled fragment;
on them, as on any non-literal token, the model answers `none`, which in
`_parse_value` becomes the raw-string fallback, exactly as the Python
code catches the exception.  Leading-zero integers such as chars "007"
are a SyntaxError in Python 3 and hence also answer `none`. -/
def litEval (s : Str) : Option Value :=
  let (neg, r) := splitSign s
  match splitExpOnce r with
  | some (mant, ex) =>
    match parseExpPart ex with
    | Option.none => Option.none
    | some e =>
      match splitChOnce '.' mant with
      | Option.none =>
        if mant ≠ [] && allDigits mant then
          some (decFloat neg (digitsVal mant) 0 e)
        else Option.none
      | some (ip, fp) =>
        if (ip ++ fp) ≠ [] && allDigits ip && allDigits fp then
          some (decFloat neg (digitsVal (ip ++ fp)) fp.length e)
        else Option.none
  | Option.none =>
    match splitChOnce '.' r with
    | Option.none =>
      if r ≠ [] && allDigits r && (r = ['0'] || r.head? ≠ some '0') then
        some (.int (intOf neg (digitsVal r)))
      else Option.none
    | some (ip, fp) =>
      if (ip ++ fp) ≠ [] && allDigits ip && allDigits fp then
        some (decFloat neg (digitsVal (ip ++ fp)) fp.length 0)
      else Option.none

def isIdentCh (c : Char) : Bool := c.isAlphanum || c = '_'

/-- Python identifier shape (ASCII). -/
def isPyIdent : Str → Bool
  | [] => false
  | c :: rest => (c.isAlpha || c = '_') && rest.all isIdentCh

/-- Exceptions and process terminations the configuration code can
produce.  `valueErr` is the ValueError of a failed tuple unpacking
(malformed override), `assertErr` an AssertionError with its message,
`dupSection`/`dupOption` the strict-mode configparser duplicate errors,
`keyErr` a KeyError, and `exitNonzero` models `sys.exit(1)` carrying the
diagnostics printed before the exit, in order. -/
inductive PyExc where
  | valueErr
  | nameErr
  | syntaxErr
  | keyErr
  | assertErr (msg : Str)
  | dupSection
  | dupOption
  | exitNonzero (msgs : List Str)
deriving DecidableEq

/-- Python `eval` with empty global and local namespaces, restricted to
the tokens `_parse_value` can send it: capitalized tokens starting with
chars "False", chars "True" or chars "None".  The exact keywords evaluate
to the corresponding constants.  Any other identifier is an unbound name
(no capitalized builtin starts with one of the three keywords, and
`str.capitalize` lower-cases the rest of the token), so it raises
NameError.  Remaining tokens are modelled as SyntaxError; compound
expressions such as chars "False or True" evaluate in Python but are
outside every claim's domain, and the claims below apply this model only
to identifier tokens and the exact literals. -/
def evalEmpty (s : Str) : Except PyExc Value :=
  if s = chars "False" then .ok (.bool false)
  else if s = chars "True" then .ok (.bool true)
  else if s = chars "None" then .ok Value.none
  else if isPyIdent s then .error .nameErr
  else .error .syntaxErr

/-- Source `_parse_value` (config.py lines 75-93).  The boolean/None
branch calls `eval` outside of any try/except; the `literal_eval` call is
wrapped, so its failures fall back to the raw string. -/
def _parse_value (s : Str) : Except PyExc Value :=
  if startsBoolNone (pyCapitalize s) then evalEmpty (pyCapitalize s)
  else
    match litEval s with
    | some v => .ok v
    | Option.none => .ok (.str s)

/-- Source `_parse_value` applied to an already path-resolved override
value (config.py line 104), whose argument is a str or a Path.  For a
Path argument `str(value).capitalize()` never starts with a keyword (the
text of a path starts with a tilde, slash or dot), and `literal_eval`
raises TypeError on a non-string argument, which the bare `except`
catches, so the Path itself is returned. -/
def parseValueArg : Value → Except PyExc Value
  | .str s => _parse_value s
  | v => .ok v

def dropTrailZeros (l : Str) : Str :=
  (l.reverse.dropWhile (fun c => c = '0')).reverse

/-- CPython `repr`/`str` of a float, on the canonical-decimal domain of
the model.  CPython prints the shortest decimal that round-trips, i.e.
the exact decimal expansion here, positionally when the decimal exponent
is in [-4, 16), in scientific notation (exponent padded to two digits)
otherwise. -/
def floatRepr (num : Int) (den10 : Nat) : Str :=
  if num = 0 then chars "0.0"
  else
    let sgn : Str := if num < 0 then ['-'] else []
    let ds := natChars num.natAbs
    let nd := ds.length
    let exp10 : Int := (nd : Int) - 1 - (den10 : Int)
    if -4 ≤ exp10 ∧ exp10 < 16 then
      sgn ++ (if den10 = 0 then ds ++ chars ".0"
        else if nd ≤ den10 then
          chars "0." ++ List.replicate (den10 - nd) '0' ++ ds
        else ds.take (nd - den10) ++ '.' :: ds.drop (nd - den10))
    else
      let core := dropTrailZeros ds
      let mstr : Str :=
        match core with
        | [] => ['0']
        | d :: [] => [d]
        | d :: rest => d :: '.' :: rest
      let ea := exp10.natAbs
      let echars := if ea < 10 then '0' :: natChars ea else natChars ea
      sgn ++ mstr ++ 'e' :: (if exp10 < 0 then '-' else '+') :: echars

/-- Python `str()` as `ConfigParser.read_dict` applies it to the values of
the defaults table.  Container rendering is left degenerate: no modelled
value is a container. -/
def pyStr : Value → Str
  | .bool b => if b then chars "True" else chars "False"
  | .none => chars "None"
  | .int i => intChars i
  | .float n d => floatRepr n d
  | .str s => s
  | .path s => s
  | .list _ => []
  | .dict _ => []

/-- Source `TRAIN_DEFAULTS` (config.py lines 14-53), in source order. -/
def TRAIN_DEFAULTS : List (Str × Value) := [
  (chars "num_workers", .int 0),
  (chars "pin_memory", .bool false),
  (chars "seed", .int 0),
  (chars "gclip", .float 5 0),
  (chars "l2_reg", .float 0 0),
  (chars "patience", .int 20),
  (chars "optimizer", .str (chars "adam")),
  (chars "lr", .float 4 4),
  (chars "lr_decay", .bool false),
  (chars "lr_decay_revert", .bool false),
  (chars "lr_decay_factor", .float 1 1),
  (chars "lr_decay_patience", .int 10),
  (chars "lr_decay_min", .float 1 6),
  (chars "model_type", .str []),
  (chars "momentum", .float 0 0),
  (chars "nesterov", .bool false),
  (chars "disp_freq", .int 30),
  (chars "batch_size", .int 32),
  (chars "max_epochs", .int 100),
  (chars "max_iterations", .int 1000000),
  (chars "eval_metrics", .str (chars "loss")),
  (chars "eval_filters", .str []),
  (chars "eval_beam", .int 6),
  (chars "eval_batch_size", .int 16),
  (chars "eval_freq", .int 3000),
  (chars "eval_max_len", .int 200),
  (chars "eval_start", .int 1),
  (chars "eval_zero", .bool false),
  (chars "save_best_metrics", .bool true),
  (chars "save_path", .str []),
  (chars "save_optim_state", .bool false),
  (chars "checkpoint_freq", .int 5000),
  (chars "n_checkpoints", .int 5),
  (chars "tensorboard_dir", .str []),
  (chars "pretrained_file", .str []),
  (chars "freeze_layers", .str []),
  (chars "handle_oom", .bool false)]

/-- `list(TRAIN_DEFAULTS.keys())` (config.py line 189). -/
def defKeys : List Str := TRAIN_DEFAULTS.map Prod.fst

/-- Lookup in an insertion-ordered association list (Python dict read). -/
def dGet {α : Type} : List (Str × α) → Str → Option α
  | [], _ => none
  | (k, v) :: t, key => if k = key then some v else dGet t key

/-- Python dict assignment: replaces the value in place when the key is
present (keeping its position), appends otherwise. -/
def dSet {α : Type} : List (Str × α) → Str → α → List (Str × α)
  | [], key, v => [(key, v)]
  | (k, w) :: t, key, v =>
    if k = key then (k, v) :: t else (k, w) :: dSet t key v

def nodupKeys : List Str → Bool
  | [] => true
  | x :: t => !(decide (x ∈ t)) && nodupKeys t

def dedupFirstGo (seen : List Str) : List Str → List Str
  | [] => []
  | x :: t =>
    if decide (x ∈ seen) then dedupFirstGo seen t
    else x :: dedupFirstGo (x :: seen) t

def dedupFirst (l : List Str) : List Str := dedupFirstGo [] l

/-- Two-level override mapping, `section -> key -> coerced value`. -/
abbrev Overrides := List (Str × List (Str × Value))

def parseOverridesGo (acc : Overrides) : List Str → Except PyExc Overrides
  | [] => .ok acc
  | opt :: rest =>
    match splitChOnce '.' opt with
    | Option.none => .error .valueErr
    | some (sec, keyvalue) =>
      match splitCh ':' keyvalue with
      | [key, value] =>
        match parseValueArg (resolvePathStr value) with
        | .error e => .error e
        | .ok v =>
          parseOverridesGo (dSet acc sec (dSet ((dGet acc sec).getD []) key v)) rest
      | _ => .error .valueErr

/-- Source `Options.parse_overrides` (config.py lines 97-105).  Each entry
is split on its FIRST dot only (maxsplit 1); a missing dot makes the
two-variable unpacking raise ValueError.  The remainder after that dot is
split on ALL its colons, and the second unpacking succeeds exactly when
that remainder contains exactly one colon.  The value text is
path-resolved, then coerced (which itself can raise, see `_parse_value`);
`defaultdict(dict)` accumulation makes a later entry for the same section
and key overwrite the earlier one. -/
def parse_overrides (l : List Str) : Except PyExc Overrides :=
  parseOverridesGo [] l

def dGetN : List (Nat × Nat) → Nat → Option Nat
  | [], _ => none
  | (k, v) :: t, key => if k = key then some v else dGetN t key

/-- Ascending positions of character `c` in a string: the `b2j` entry of
difflib `SequenceMatcher` (no junk, no popular entries: every string
involved is far shorter than the 200-character autojunk threshold). -/
def posAux (c : Char) : Str → Nat → List Nat
  | [], _ => []
  | x :: xs, i => if x = c then i :: posAux c xs (i + 1) else posAux c xs (i + 1)

/-- One row (fixed `i`) of the difflib `find_longest_match` dynamic
programming: builds `newj2len` and updates the best block.  The strictly-
greater comparison keeps the earliest maximal block, as in difflib; for
`j = 0` the lookup of `j - 1` misses, as the Python dict `get(-1)` does. -/
def flmRow (i : Nat) (js : List Nat) (j2len : List (Nat × Nat))
    (best : Nat × Nat × Nat) : (List (Nat × Nat)) × (Nat × Nat × Nat) :=
  js.foldl (fun st j =>
    let k := (if j = 0 then 0 else (dGetN j2len (j - 1)).getD 0) + 1
    let nj2 := (j, k) :: st.1
    let b := if st.2.2.2 < k then (i + 1 - k, j + 1 - k, k) else st.2
    (nj2, b)) ([], best)

def flmLoop (posOf : Char → List Nat) (blo bhi : Nat) :
    List (Nat × Char) → List (Nat × Nat) → (Nat × Nat × Nat) → Nat × Nat × Nat
  | [], _, best => best
  | (i, c) :: rest, j2len, best =>
    let js := (posOf c).filter (fun j => decide (blo ≤ j) && decide (j < bhi))
    let st := flmRow i js j2len best
    flmLoop posOf blo bhi rest st.1 st.2

/-- difflib `SequenceMatcher.find_longest_match` on
`a[alo:ahi] x b[blo:bhi]`, without the junk machinery (no junk exists on
this domain, which also makes the two block-extension loops no-ops). -/
def findLongestMatch (a b : Str) (alo ahi blo bhi : Nat) : Nat × Nat × Nat :=
  flmLoop (fun c => posAux c b 0) blo bhi
    ((List.enumFrom 0 a).filter (fun p => decide (alo ≤ p.1) && decide (p.1 < ahi)))
    [] (alo, blo, 0)

def matchTotalGo (a b : Str) : Nat → Nat → Nat → Nat → Nat → Nat
  | 0, _, _, _, _ => 0
  | fuel + 1, alo, ahi, blo, bhi =>
    let r := findLongestMatch a b alo ahi blo bhi
    if r.2.2 = 0 then 0
    else
      matchTotalGo a b fuel alo r.1 blo r.2.1 + r.2.2 +
        matchTotalGo a b fuel (r.1 + r.2.2) ahi (r.2.1 + r.2.2) bhi

/-- Total size of the difflib matching blocks between `a` and `b` (the sum
of block sizes computed by `get_matching_blocks`; the queue traversal
order does not affect the sum). -/
def matchTotal (a b : Str) : Nat :=
  matchTotalGo a b (a.length + 1) 0 a.length 0 b.length

/-- difflib `SequenceMatcher.ratio()` with `a` the candidate and `b` the
queried word, as an exact fraction `2 * M / T` (numerator, denominator);
`_calculate_ratio` returns 1 when the denominator is 0, which the
comparison helpers below encode by treating a 0 denominator as 1/1. -/
def simScore (x word : Str) : Nat × Nat :=
  (2 * matchTotal x word, x.length + word.length)

def ratNorm (p : Nat × Nat) : Nat × Nat := if p.2 = 0 then (1, 1) else p

/-- The cutoff test `ratio >= 0.6` as an exact fraction comparison. -/
def ratioGeCutoff (p : Nat × Nat) : Bool :=
  decide (5 * (ratNorm p).1 ≥ 3 * (ratNorm p).2)

def ratioLt (p q : Nat × Nat) : Bool :=
  decide ((ratNorm p).1 * (ratNorm q).2 < (ratNorm q).1 * (ratNorm p).2)

def ratioEq (p q : Nat × Nat) : Bool :=
  decide ((ratNorm p).1 * (ratNorm q).2 = (ratNorm q).1 * (ratNorm p).2)

/-- difflib `get_close_matches(word, possibilities, n=1)` with the default
cutoff 0.6.  The two quick ratios are upper bounds of `ratio`, so the
candidate filter is equivalent to `ratio >= cutoff`; `heapq.nlargest(1)`
returns the greatest `(ratio, candidate)` pair in lexicographic tuple
order, floats first, Python string order on ties.  Ratios are exact
fractions here: their denominators are far too small for IEEE rounding
to move one across the 0.6 boundary or to merge two distinct ratios, so
every comparison agrees with the CPython float computation. -/
def getCloseMatches1 (word : Str) (poss : List Str) : List Str :=
  let cands := poss.filterMap (fun x =>
    let r := simScore x word
    if ratioGeCutoff r then some (r, x) else Option.none)
  match cands with
  | [] => []
  | c :: rest =>
    [(rest.foldl (fun best p =>
        if ratioLt best.1 p.1 || (ratioEq best.1 p.1 && strLt best.2 p.2)
        then p else best)
      c).2]

def squo : Str := [Char.ofNat 39]

/-- The diagnostic printed for an unknown `[train]` key (config.py lines
195-198): the file name and the key, extended with the closest matching
known key when `get_close_matches` offers one. -/
def mkUnknownMsg (filename key : Str) : Str :=
  let base := filename ++ chars ":train: Unknown option " ++ squo ++ key ++
    squo ++ chars "."
  match getCloseMatches1 key defKeys with
  | [] => base
  | m :: _ => base ++ chars "  Did you mean " ++ squo ++ m ++ squo ++ chars " ?"

/-- The set difference `set(train_keys).difference(set(TRAIN_DEFAULTS))`
of config.py line 193, listed in first-occurrence order (CPython set
iteration order is unspecified; every claim about it is
order-insensitive). -/
def pyInvalid (trainKeys : List Str) : List Str :=
  dedupFirst (trainKeys.filter (fun k => !(decide (k ∈ defKeys))))

/-- The `[train]` sanity pass of `Options.__init__` (config.py lines
187-201): the duplicate-keys assert, then one printed diagnostic per
unknown key, then `sys.exit(1)` when at least one unknown key exists. -/
def trainSanity (filename : Str) (trainKeys : List Str) : Except PyExc Unit :=
  if !(nodupKeys trainKeys) then
    .error (.assertErr (chars "Duplicate arguments found in config" ++ squo ++
      chars "s [train] section."))
  else
    match pyInvalid trainKeys with
    | [] => .ok ()
    | inv => .error (.exitNonzero (inv.map (mkUnknownMsg filename)))

/-- A configuration file after INI parsing: its ordered sections, each an
ordered list of raw `key = value` pairs (text as written; environment
expansion already applied, no DEFAULT section, no interpolation
placeholder — see the header). -/
abbrev CfgFile := List (Str × List (Str × Str))

/-- Parser section contents: ordered raw key/value pairs. -/
abbrev RawSect := List (Str × Str)

/-- `ConfigParser.read_dict(dict(train = TRAIN_DEFAULTS))` (config.py line
145): the defaults table with values passed through `str()`.  The keys
are already lower-case, so `optionxform` leaves them unchanged. -/
def defaultsAsStrs : RawSect :=
  TRAIN_DEFAULTS.map (fun p => (p.1, pyStr p.2))

/-- Key lower-casing applied by `optionxform` on read. -/
def lowKV (kvs : RawSect) : RawSect := kvs.map (fun p => (toLowerStr p.1, p.2))

def mergeSect (cur : RawSect) (kvs : RawSect) : RawSect :=
  kvs.foldl (fun c p => dSet c p.1 p.2) cur

def readMergedGo (st : List (Str × RawSect)) : CfgFile → List (Str × RawSect)
  | [] => st
  | (name, kvs) :: rest =>
    match dGet st name with
    | some cur => readMergedGo (dSet st name (mergeSect cur (lowKV kvs))) rest
    | Option.none => readMergedGo (st ++ [(name, mergeSect [] (lowKV kvs))]) rest

/-- The parser state after `read_dict` of the defaults followed by
`read_string` of the file (config.py lines 145-148).  Strict mode (the
ConfigParser default) rejects a section appearing twice in the file and a
key appearing twice inside one section; a section already present from
the defaults read is merged instead, file values overwriting defaults. -/
def readMerged (file : CfgFile) : Except PyExc (List (Str × RawSect)) :=
  if !(nodupKeys (file.map Prod.fst)) then .error .dupSection
  else if !(file.all (fun sec => nodupKeys ((lowKV sec.2).map Prod.fst))) then
    .error .dupOption
  else .ok (readMergedGo [(chars "train", defaultsAsStrs)] file)

/-- Coercion of one parser item (config.py line 178):
`resolve_path(_parse_value(value))`. -/
def coerceKV (p : Str × Str) : Except PyExc (Str × Value) :=
  match _parse_value p.2 with
  | .error e => .error e
  | .ok v => .ok (p.1, resolve_path v)

/-- A coerced section: ordered mapping from key to typed value. -/
abbrev Sect := List (Str × Value)

def coerceSect : RawSect → Except PyExc Sect
  | [] => .ok []
  | p :: t =>
    match coerceKV p with
    | .error e => .error e
    | .ok q =>
      match coerceSect t with
      | .error e => .error e
      | .ok r => .ok (q :: r)

/-- The override overlay for one section (config.py lines 180-182). -/
def applyOvr (ovr : Overrides) (name : Str) (s : Sect) : Sect :=
  match dGet ovr name with
  | Option.none => s
  | some od => od.foldl (fun c p => dSet c p.1 p.2) s

def buildSections (ovr : Overrides) : List (Str × RawSect) → Except PyExc (List (Str × Sect))
  | [] => .ok []
  | (name, kvs) :: rest =>
    match coerceSect kvs with
    | .error e => .error e
    | .ok s =>
      match buildSections ovr rest with
      | .error e => .error e
      | .ok r => .ok ((name, applyOvr ovr name s) :: r)

/-- The state of an `Options` object: the file name, the parser's section
name list, and `_psections`. -/
structure Options where
  filename : Str
  sections : List Str
  psections : List (Str × Sect)

/-- Python `list.remove`: drops the first occurrence. -/
def removeFirst : List Str → Str → List Str
  | [], _ => []
  | x :: t, y => if x = y then t else x :: removeFirst t y

/-- The section-name validation of `Options.__init__` (config.py lines
156-169): `train` and `model` must exist and are removed from the working
copy in that order; every remaining section must start with `tasks.`; no
section name may contain two dots. -/
def checkSections (secNames : List Str) : Except PyExc Unit :=
  if !(decide (chars "train" ∈ secNames)) then
    .error (.assertErr (chars "[train] section missing in configuration file."))
  else if !(decide (chars "model" ∈ removeFirst secNames (chars "train"))) then
    .error (.assertErr (chars "[model] section missing in configuration file."))
  else if !((removeFirst (removeFirst secNames (chars "train")) (chars "model")).all
      (fun s => strStarts (chars "tasks.") s)) then
    .error (.assertErr (chars "Configuration file should include train, model and tasks.* sections."))
  else if !(secNames.all (fun s => countCh '.' s < 2)) then
    .error (.assertErr (chars "Maximum level of section name grouping exceeded"))
  else .ok ()

/-- The override step of `Options.__init__` (config.py lines 150-154):
parse the override list when one is given, otherwise `self.overrides`
becomes the empty container. -/
def ovrStep : Option (List Str) → Except PyExc Overrides
  | some l => parse_overrides l
  | Option.none => .ok []

/-- Source `Options.__init__` (config.py lines 137-201), starting from the
parsed file text: read the defaults, merge the file over them, parse the
overrides, validate section names, coerce every section and overlay the
overrides on it, and run the `[train]` sanity pass.  The steps appear in
source order, which fixes which error surfaces first. -/
def loadConfig (filename : Str) (file : CfgFile) (overrides : Option (List Str)) :
    Except PyExc Options :=
  match readMerged file with
  | .error e => .error e
  | .ok ps =>
    match ovrStep overrides with
    | .error e => .error e
    | .ok ovr =>
      let secNames := ps.map Prod.fst
      match checkSections secNames with
      | .error e => .error e
      | .ok _ =>
        match buildSections ovr ps with
        | .error e => .error e
        | .ok secs =>
          let trainKeys := ((dGet secs (chars "train")).getD []).map Prod.fst
          match trainSanity filename trainKeys with
          | .error e => .error e
          | .ok _ => .ok ⟨filename, secNames, secs⟩

/-- Source `Options.__getitem__` (config.py lines 206-214): an exact
section hit returns that section; otherwise the KeyError is caught and a
parent-prefix view is returned, mapping the last dot-component of each
matching child name to that child section (empty when nothing matches —
no exception escapes). -/
def getitem (o : Options) (key : Str) : Sect ⊕ List (Str × Sect) :=
  match dGet o.psections key with
  | some s => .inl s
  | Option.none =>
    .inr (o.psections.filterMap (fun p =>
      if strStarts (key ++ ['.']) p.1 then
        some ((splitCh '.' p.1).getLastD [], p.2)
      else Option.none))

/-- The plain mapping produced by `Options.to_dict` (config.py lines
126-135): the filename, the parser's section-name list, and one entry per
parsed section holding a deep copy of its mapping (a pure value here).
Section names never collide with the two fixed keys on the modelled
domain, so the mapping is represented as a structure. -/
structure SerialCfg where
  filename : Str
  sections : List Str
  data : List (Str × Sect)

/-- Source `Options.to_dict`. -/
def to_dict (o : Options) : SerialCfg :=
  ⟨o.filename, o.sections, o.psections⟩

def fromDictOvrGo (data : List (Str × Sect)) :
    Overrides → Except PyExc (List (Str × Sect))
  | [] => .ok data
  | (sec, od) :: rest =>
    match dGet data sec with
    | Option.none => .error .keyErr
    | some cur =>
      fromDictOvrGo (dSet data sec (od.foldl (fun c p => dSet c p.1 p.2) cur)) rest

def fromDictSecs (data : List (Str × Sect)) :
    List Str → Except PyExc (List (Str × Sect))
  | [] => .ok []
  | s :: rest =>
    match dGet data s with
    | Option.none => .error .keyErr
    | some t =>
      match fromDictSecs data rest with
      | .error e => .error e
      | .ok r => .ok ((s, t) :: r)

/-- Source `Options.from_dict` (config.py lines 107-124).  The object's
attribute dict is `update`d from the caller's dict, so the object's
section mappings ARE the caller's section mappings (no copy is taken):
the override writes `obj.__dict__[section][key] = value` mutate the
caller's dict in place.  The model returns, next to the object, the
post-call state of the caller's dict; a missing section raises KeyError
exactly where Python would. -/
def from_dict (d : SerialCfg) (overrideList : Option (List Str)) :
    Except PyExc (Options × SerialCfg) :=
  match (match overrideList with
         | some l =>
           match parse_overrides l with
           | .error e => .error e
           | .ok ovr => fromDictOvrGo d.data ovr
         | Option.none => .ok d.data : Except PyExc (List (Str × Sect))) with
  | .error e => .error e
  | .ok data =>
    match fromDictSecs data d.sections with
    | .error e => .error e
    | .ok ps => .ok (⟨d.filename, d.sections, ps⟩, ⟨d.filename, d.sections, data⟩)

/-! ### Association-list (Python dict) lemmas -/

theorem dGet_dSet_self {α : Type} (d : List (Str × α)) (k : Str) (v : α) :
    dGet (dSet d k v) k = some v := by
  induction d with
  | nil => simp [dGet, dSet]
  | cons p t ih =>
    obtain ⟨k₁, v₁⟩ := p
    by_cases h : k₁ = k
    · subst h; simp [dGet, dSet]
    · simp [dGet, dSet, h, ih]

theorem dGet_dSet_ne {α : Type} (d : List (Str × α)) (k k' : Str) (v : α)
    (h : k' ≠ k) : dGet (dSet d k' v) k = dGet d k := by
  induction d with
  | nil => simp [dGet, dSet, h]
  | cons p t ih =>
    obtain ⟨k₁, v₁⟩ := p
    by_cases h1 : k₁ = k'
    · subst h1; simp [dGet, dSet, h]
    · by_cases h2 : k₁ = k
      · subst h2; simp [dGet, dSet, h1]
      · simp [dGet, dSet, h1, h2, ih]

theorem dGet_eq_none_iff {α : Type} (d : List (Str × α)) (k : Str) :
    dGet d k = none ↔ k ∉ d.map Prod.fst := by
  induction d with
  | nil => simp [dGet]
  | cons p t ih =>
    obtain ⟨k₁, v₁⟩ := p
    by_cases h : k₁ = k
    · subst h
      rw [dGet, if_pos rfl]
      simp only [List.map_cons, List.mem_cons]
      constructor
      · intro hn; cases hn
      · intro hn; exact absurd (Or.inl trivial) hn
    · simp only [dGet, if_neg h, List.map_cons, List.mem_cons, not_or, ih]
      constructor
      · intro hn; exact ⟨fun he => h he.symm, hn⟩
      · intro hn; exact hn.2

theorem dGet_append {α : Type} (d₁ d₂ : List (Str × α)) (k : Str) :
    dGet (d₁ ++ d₂) k = (dGet d₁ k).or (dGet d₂ k) := by
  induction d₁ with
  | nil => simp [dGet]
  | cons p t ih =>
    obtain ⟨k₁, v₁⟩ := p
    by_cases h : k₁ = k
    · subst h; simp [dGet]
    · simp [dGet, h, ih]

theorem nodupKeys_cons_iff (x : Str) (t : List Str) :
    nodupKeys (x :: t) = true ↔ x ∉ t ∧ nodupKeys t = true := by
  simp [nodupKeys]

theorem dGet_of_mem_nodup {α : Type} (d : List (Str × α)) (k : Str) (v : α)
    (hnd : nodupKeys (d.map Prod.fst) = true) (hm : (k, v) ∈ d) :
    dGet d k = some v := by
  induction d with
  | nil => cases hm
  | cons p t ih =>
    obtain ⟨k₁, v₁⟩ := p
    rw [List.map_cons, nodupKeys_cons_iff] at hnd
    rcases List.mem_cons.mp hm with h | h
    · cases h; simp [dGet]
    · have hk : k₁ ≠ k := by
        intro he
        refine hnd.1 ?_
        rw [he]
        have : Prod.fst (k, v) ∈ List.map Prod.fst t :=
          List.mem_map_of_mem Prod.fst h
        exact this
      simp [dGet, hk, ih hnd.2 h]

theorem dGet_map_val {α β : Type} (f : α → β) (d : List (Str × α)) (k : Str) :
    dGet (d.map (fun p => (p.1, f p.2))) k = (dGet d k).map f := by
  induction d with
  | nil => simp [dGet]
  | cons p t ih =>
    obtain ⟨k₁, v₁⟩ := p
    by_cases h : k₁ = k
    · subst h; simp [dGet]
    · simp [dGet, h, ih]

theorem foldl_dSet_of_not_mem {α : Type} (l : List (Str × α))
    (s : List (Str × α)) (k : Str) (h : k ∉ l.map Prod.fst) :
    dGet (l.foldl (fun c p => dSet c p.1 p.2) s) k = dGet s k := by
  induction l generalizing s with
  | nil => simp
  | cons p t ih =>
    obtain ⟨k₁, v₁⟩ := p
    simp only [List.map_cons, List.mem_cons, not_or] at h
    rw [List.foldl_cons, ih _ h.2]
    exact dGet_dSet_ne _ _ _ _ (Ne.symm h.1)

theorem foldl_dSet_of_get {α : Type} (l s : List (Str × α)) (k : Str) (v : α)
    (hnd : nodupKeys (l.map Prod.fst) = true) (h : dGet l k = some v) :
    dGet (l.foldl (fun c p => dSet c p.1 p.2) s) k = some v := by
  induction l generalizing s with
  | nil => simp [dGet] at h
  | cons p t ih =>
    obtain ⟨k₁, v₁⟩ := p
    rw [List.map_cons, nodupKeys_cons_iff] at hnd
    by_cases hk : k₁ = k
    · subst hk
      simp [dGet] at h
      subst h
      rw [List.foldl_cons, foldl_dSet_of_not_mem _ _ _ hnd.1, dGet_dSet_self]
    · simp only [dGet, if_neg hk] at h
      rw [List.foldl_cons]
      exact ih _ hnd.2 h

theorem mem_keys_dSet {α : Type} (d : List (Str × α)) (k a : Str) (v : α) :
    a ∈ (dSet d k v).map Prod.fst ↔ a ∈ d.map Prod.fst ∨ a = k := by
  induction d with
  | nil => simp [dSet]
  | cons p t ih =>
    obtain ⟨k₁, v₁⟩ := p
    by_cases h : k₁ = k
    · subst h
      rw [dSet, if_pos rfl]
      simp only [List.map_cons]
      constructor
      · intro hm; exact Or.inl hm
      · intro hm
        rcases hm with hm | hm
        · exact hm
        · rw [hm]; exact List.mem_cons_self _ _
    · rw [dSet, if_neg h]
      simp only [List.map_cons, List.mem_cons]
      rw [ih]
      tauto

theorem nodup_keys_dSet {α : Type} (d : List (Str × α)) (k : Str) (v : α)
    (h : nodupKeys (d.map Prod.fst) = true) :
    nodupKeys ((dSet d k v).map Prod.fst) = true := by
  induction d with
  | nil => simp [dSet, nodupKeys]
  | cons p t ih =>
    obtain ⟨k₁, v₁⟩ := p
    rw [List.map_cons, nodupKeys_cons_iff] at h
    by_cases hk : k₁ = k
    · subst hk
      rw [dSet, if_pos rfl, List.map_cons, nodupKeys_cons_iff]
      exact h
    · rw [dSet, if_neg hk, List.map_cons, nodupKeys_cons_iff]
      refine ⟨fun hc => ?_, ih h.2⟩
      rcases (mem_keys_dSet t k k₁ v).mp hc with hm | he
      · exact h.1 hm
      · exact hk he

/-! ### Claims C2 and C3: the coercion engine -/

/-- C2 counterexample.  The claim says coercion returns a value for every
input string and never raises; but on the token chars "falsey" the
capitalized form chars "Falsey" passes the startswith check of line 83 and
`eval` (which is outside the try/except guarding only `literal_eval`)
raises NameError for the unbound name. -/
theorem C2_counterexample : _parse_value (chars "falsey") = .error .nameErr := by
  rfl

/-- C2 as amended: for every input string whose capitalized form does not
start with chars "False", chars "True" or chars "None", coercion returns
a value and never raises — the literal parse on success, the raw string
otherwise.  (Tokens whose capitalization does start with one of the three
keywords are instead handed to `eval`, which raises NameError on e.g.
chars "falsey"; the exact keywords themselves still evaluate to their
constants.) -/
theorem C2_amended_no_raise (s : Str)
    (h : startsBoolNone (pyCapitalize s) = false) :
    _parse_value s = .ok ((litEval s).getD (.str s)) := by
  unfold _parse_value
  rw [h]
  cases hv : litEval s <;> simp [hv, Option.getD]

/-- Witness for `C2_amended_no_raise` at the token chars "hello". -/
theorem C2_amended_witness :
    startsBoolNone (pyCapitalize (chars "hello")) = false ∧
    _parse_value (chars "hello") =
      .ok ((litEval (chars "hello")).getD (.str (chars "hello"))) :=
  ⟨by decide, C2_amended_no_raise (chars "hello") (by decide)⟩

/-- C3 counterexample.  The claim says a token such as chars "Falsey",
whose capitalization merely starts with a keyword, is handled by the later
literal-parse/string-fallback steps; in the code those steps are never
reached: the startswith branch is taken and `eval` raises NameError, so
the coercion neither returns the string fallback nor any value at all. -/
theorem C3_counterexample :
    _parse_value (chars "Falsey") = .error .nameErr ∧
    _parse_value (chars "Falsey") ≠ .ok (.str (chars "Falsey")) := by
  refine ⟨rfl, fun h => ?_⟩
  rw [show _parse_value (chars "Falsey") = .error .nameErr from rfl] at h
  exact Except.noConfusion h

/-- C3 as amended: a token whose capitalization starts with one of the
keyword prefixes is handed to the `eval` branch — the literal-parse and
string-fallback steps are not reached — and when the capitalized token is
an identifier other than an exact keyword, coercion raises NameError
rather than returning the corresponding constant or the string. -/
theorem C3_amended_eval_branch (s : Str)
    (h : startsBoolNone (pyCapitalize s) = true) :
    _parse_value s = evalEmpty (pyCapitalize s) ∧
    (isPyIdent (pyCapitalize s) = true →
      pyCapitalize s ≠ chars "False" → pyCapitalize s ≠ chars "True" →
      pyCapitalize s ≠ chars "None" →
      _parse_value s = .error .nameErr) := by
  constructor
  · unfold _parse_value
    rw [h]
    simp
  · intro hid h1 h2 h3
    unfold _parse_value
    rw [h]
    simp only [if_true]
    unfold evalEmpty
    rw [if_neg h1, if_neg h2, if_neg h3, if_pos hid]

/-- Witness for `C3_amended_eval_branch` at the token chars "Falsey". -/
theorem C3_amended_witness :
    startsBoolNone (pyCapitalize (chars "Falsey")) = true ∧
    _parse_value (chars "Falsey") = evalEmpty (pyCapitalize (chars "Falsey")) ∧
    _parse_value (chars "Falsey") = .error .nameErr := by
  have h := C3_amended_eval_branch (chars "Falsey") (by decide)
  exact ⟨by decide, h.1,
    h.2 (by decide) (by decide) (by decide) (by decide)⟩

/-! ### Claim C4: override parsing -/

theorem splitCh_length (c : Char) (s : Str) :
    (splitCh c s).length = countCh c s + 1 := by
  induction s with
  | nil => simp [splitCh, countCh]
  | cons x xs ih =>
    simp only [splitCh]
    by_cases h : x = c
    · subst h
      rw [if_pos rfl]
      simp only [List.length_cons]
      have hc : countCh x (x :: xs) = countCh x xs + 1 := by
        simp [countCh, List.countP_cons]
      rw [hc, ih]
    · rw [if_neg h]
      cases hr : splitCh c xs with
      | nil => rw [hr] at ih; simp at ih
      | cons hh tt =>
        rw [hr] at ih
        simp only [List.length_cons] at ih ⊢
        have hc : countCh c (x :: xs) = countCh c xs := by
          simp [countCh, List.countP_cons, h]
        rw [hc]
        exact ih

theorem parseOverridesGo_ok_iff (l : List Str) : ∀ acc : Overrides,
    (∃ m, parseOverridesGo acc l = .ok m) ↔
      ∀ opt ∈ l, ∃ sec rest, splitChOnce '.' opt = some (sec, rest) ∧
        countCh ':' rest = 1 ∧
        ∀ key value, splitCh ':' rest = [key, value] →
          ∃ v, parseValueArg (resolvePathStr value) = .ok v := by
  induction l with
  | nil =>
    intro acc
    constructor
    · intro _ opt hm; cases hm
    · intro _; exact ⟨acc, rfl⟩
  | cons opt rest ih =>
    intro acc
    simp only [parseOverridesGo]
    cases hso : splitChOnce '.' opt with
    | none =>
      dsimp only
      constructor
      · rintro ⟨m, hm⟩; cases hm
      · intro hall
        obtain ⟨sec, r0, hsr, _⟩ := hall opt (List.mem_cons_self _ _)
        rw [hso] at hsr
        cases hsr
    | some p =>
      obtain ⟨sec, r0⟩ := p
      dsimp only
      have hlen := splitCh_length ':' r0
      cases hsc : splitCh ':' r0 with
      | nil =>
        dsimp only
        rw [hsc] at hlen
        simp at hlen
      | cons a t =>
        cases t with
        | nil =>
          dsimp only
          rw [hsc] at hlen
          constructor
          · rintro ⟨m, hm⟩; cases hm
          · intro hall
            obtain ⟨sec', r', hsr, hcnt, _⟩ := hall opt (List.mem_cons_self _ _)
            rw [hso] at hsr
            injection hsr with hsr
            injection hsr with h1 h2
            subst h1; subst h2
            simp at hlen
            omega
        | cons b t2 =>
          cases t2 with
          | nil =>
            dsimp only
            cases hpv : parseValueArg (resolvePathStr b) with
            | error e =>
              dsimp only
              constructor
              · rintro ⟨m, hm⟩; cases hm
              · intro hall
                obtain ⟨sec', r', hsr, hcnt, hv⟩ := hall opt (List.mem_cons_self _ _)
                rw [hso] at hsr
                injection hsr with hsr
                injection hsr with h1 h2
                subst h1; subst h2
                obtain ⟨v, hv⟩ := hv a b hsc
                rw [hpv] at hv
                cases hv
            | ok v =>
              dsimp only
              have hcnt : countCh ':' r0 = 1 := by
                rw [hsc] at hlen
                simp at hlen
                omega
              constructor
              · intro hex o ho
                rcases List.mem_cons.mp ho with he | hmem
                · subst he
                  refine ⟨sec, r0, hso, hcnt, ?_⟩
                  intro key value hkv
                  rw [hsc] at hkv
                  injection hkv with h1 h2
                  injection h2 with h2 _
                  subst h1; subst h2
                  exact ⟨v, hpv⟩
                · exact (ih _).mp hex o hmem
              · intro hall
                refine (ih _).mpr ?_
                intro o ho
                exact hall o (List.mem_cons_of_mem _ ho)
          | cons c3 t3 =>
            dsimp only
            rw [hsc] at hlen
            constructor
            · rintro ⟨m, hm⟩; cases hm
            · intro hall
              obtain ⟨sec', r', hsr, hcnt, _⟩ := hall opt (List.mem_cons_self _ _)
              rw [hso] at hsr
              injection hsr with hsr
              injection hsr with h1 h2
              subst h1; subst h2
              simp at hlen
              omega

/-- C4 counterexample.  The claim says an entry with more than one dot is
a fatal MalformedOverride; the code splits on the first dot only
(maxsplit 1), so chars "tasks.sub.key:1" parses successfully, yielding
section chars "tasks" and key chars "sub.key". -/
theorem C4_counterexample :
    parse_overrides [chars "tasks.sub.key:1"] =
      .ok [(chars "tasks", [(chars "sub.key", Value.int 1)])] := by
  rfl

/-- C4 as amended: `parse_overrides` succeeds exactly when every entry
contains at least one dot (the split is on the first dot only, so extra
dots simply stay in the key), the part after the first dot contains
exactly one colon (colons before the first dot are not counted), and the
value token coerces without an exception (the coercion itself raises on
tokens such as chars "falsey", see C2). -/
theorem C4_amended_success_iff (l : List Str) :
    (∃ m, parse_overrides l = .ok m) ↔
      ∀ opt ∈ l, ∃ sec rest, splitChOnce '.' opt = some (sec, rest) ∧
        countCh ':' rest = 1 ∧
        ∀ key value, splitCh ':' rest = [key, value] →
          ∃ v, parseValueArg (resolvePathStr value) = .ok v := by
  unfold parse_overrides
  exact parseOverridesGo_ok_iff l []

/-- Witness for `C4_amended_success_iff`, instantiating the right-hand
side at a concrete entry list. -/
theorem C4_amended_witness :
    ∃ m, parse_overrides [chars "a.b2.c:12"] = .ok m := by
  refine (C4_amended_success_iff [chars "a.b2.c:12"]).mpr ?_
  intro opt hm
  rw [List.mem_singleton] at hm
  subst hm
  refine ⟨chars "a", chars "b2.c:12", by decide, by decide, ?_⟩
  intro key value hkv
  have hs : splitCh ':' (chars "b2.c:12") = [chars "b2.c", chars "12"] := by
    decide
  rw [hs] at hkv
  injection hkv with h1 h2
  injection h2 with h2 _
  subst h2
  exact ⟨Value.int 12, rfl⟩

/-! ### Overrides and parser-state invariants -/

theorem mem_dSet {α : Type} (d : List (Str × α)) (k : Str) (v : α)
    (p : Str × α) (h : p ∈ dSet d k v) : p ∈ d ∨ p = (k, v) := by
  induction d with
  | nil =>
    rw [dSet] at h
    right
    rcases List.mem_cons.mp h with he | hm
    · exact he
    · cases hm
  | cons q t ih =>
    obtain ⟨k₁, v₁⟩ := q
    by_cases hk : k₁ = k
    · subst hk
      rw [dSet, if_pos rfl] at h
      rcases List.mem_cons.mp h with he | hm
      · right; exact he
      · left; exact List.mem_cons_of_mem _ hm
    · rw [dSet, if_neg hk] at h
      rcases List.mem_cons.mp h with he | hm
      · left; rw [he]; exact List.mem_cons_self _ _
      · rcases ih hm with h1 | h1
        · left; exact List.mem_cons_of_mem _ h1
        · right; exact h1

theorem dGet_mem {α : Type} (d : List (Str × α)) (k : Str) (v : α)
    (h : dGet d k = some v) : (k, v) ∈ d := by
  induction d with
  | nil => cases h
  | cons q t ih =>
    obtain ⟨k₁, v₁⟩ := q
    by_cases hk : k₁ = k
    · subst hk
      rw [dGet, if_pos rfl] at h
      injection h with h
      subst h
      exact List.mem_cons_self _ _
    · rw [dGet, if_neg hk] at h
      exact List.mem_cons_of_mem _ (ih h)

theorem parseOverridesGo_inv (l : List Str) : ∀ acc m : Overrides,
    nodupKeys (acc.map Prod.fst) = true →
    (∀ p ∈ acc, nodupKeys (p.2.map Prod.fst) = true) →
    parseOverridesGo acc l = .ok m →
    nodupKeys (m.map Prod.fst) = true ∧
      ∀ p ∈ m, nodupKeys (p.2.map Prod.fst) = true := by
  induction l with
  | nil =>
    intro acc m h1 h2 h
    injection h with h
    subst h
    exact ⟨h1, h2⟩
  | cons opt rest ih =>
    intro acc m h1 h2 h
    rw [parseOverridesGo] at h
    cases hso : splitChOnce '.' opt with
    | none => rw [hso] at h; cases h
    | some p =>
      obtain ⟨sec, r0⟩ := p
      rw [hso] at h
      dsimp only at h
      cases hsc : splitCh ':' r0 with
      | nil => rw [hsc] at h; cases h
      | cons a t =>
        cases t with
        | nil => rw [hsc] at h; cases h
        | cons b t2 =>
          cases t2 with
          | cons c3 t3 => rw [hsc] at h; cases h
          | nil =>
            rw [hsc] at h
            dsimp only at h
            cases hpv : parseValueArg (resolvePathStr b) with
            | error e => rw [hpv] at h; cases h
            | ok v =>
              rw [hpv] at h
              dsimp only at h
              have hinner : nodupKeys
                  ((dSet ((dGet acc sec).getD []) a v).map Prod.fst) = true := by
                refine nodup_keys_dSet _ _ _ ?_
                cases hg : dGet acc sec with
                | none => simp [nodupKeys]
                | some i => exact h2 (sec, i) (dGet_mem _ _ _ hg)
              refine ih _ m (nodup_keys_dSet _ _ _ h1) ?_ h
              intro q hq
              rcases mem_dSet _ _ _ _ hq with hqm | hqe
              · exact h2 q hqm
              · rw [hqe]; exact hinner

theorem parse_overrides_inv (l : List Str) (m : Overrides)
    (h : parse_overrides l = .ok m) :
    nodupKeys (m.map Prod.fst) = true ∧
      ∀ p ∈ m, nodupKeys (p.2.map Prod.fst) = true := by
  exact parseOverridesGo_inv l [] m (by simp [nodupKeys]) (by simp) h

theorem nodupKeys_append_singleton (l : List Str) (x : Str)
    (h : nodupKeys l = true) (hx : x ∉ l) : nodupKeys (l ++ [x]) = true := by
  induction l with
  | nil => simp [nodupKeys]
  | cons y t ih =>
    rw [nodupKeys_cons_iff] at h
    rw [List.cons_append, nodupKeys_cons_iff]
    rw [List.mem_cons, not_or] at hx
    constructor
    · intro hc
      rcases List.mem_append.mp hc with hm | hm
      · exact h.1 hm
      · rw [List.mem_singleton] at hm
        exact hx.1 hm.symm
    · exact ih h.2 hx.2

theorem readMergedGo_dGet_not_mem (file : CfgFile) : ∀ st name,
    name ∉ file.map Prod.fst →
    dGet (readMergedGo st file) name = dGet st name := by
  induction file with
  | nil => intro st name _; rfl
  | cons sec rest ih =>
    obtain ⟨n, kvs⟩ := sec
    intro st name h
    simp only [List.map_cons, List.mem_cons, not_or] at h
    rw [readMergedGo]
    cases hg : dGet st n with
    | some cur =>
      rw [ih _ _ h.2]
      exact dGet_dSet_ne _ _ _ _ (fun he => h.1 he.symm)
    | none =>
      rw [ih _ _ h.2, dGet_append]
      have hone : dGet [(n, mergeSect [] (lowKV kvs))] name = none := by
        rw [dGet, if_neg (fun he => h.1 he.symm)]
        rfl
      rw [hone, Option.or_none]

theorem readMergedGo_nodup (file : CfgFile) : ∀ st,
    nodupKeys (st.map Prod.fst) = true →
    nodupKeys ((readMergedGo st file).map Prod.fst) = true := by
  induction file with
  | nil => intro st h; exact h
  | cons sec rest ih =>
    obtain ⟨n, kvs⟩ := sec
    intro st h
    rw [readMergedGo]
    cases hg : dGet st n with
    | some cur => exact ih _ (nodup_keys_dSet _ _ _ h)
    | none =>
      refine ih _ ?_
      rw [List.map_append]
      exact nodupKeys_append_singleton _ _ h
        ((dGet_eq_none_iff _ _).mp hg)

theorem readMergedGo_dGet_mem (file : CfgFile) : ∀ st name cur,
    nodupKeys (file.map Prod.fst) = true →
    dGet st name = some cur →
    dGet (readMergedGo st file) name =
      some (match dGet file name with
            | some kvs => mergeSect cur (lowKV kvs)
            | Option.none => cur) := by
  induction file with
  | nil =>
    intro st name cur _ h
    rw [readMergedGo, h]
    rfl
  | cons sec rest ih =>
    obtain ⟨n, kvs⟩ := sec
    intro st name cur hnd hg
    rw [List.map_cons, nodupKeys_cons_iff] at hnd
    rw [readMergedGo]
    by_cases he : n = name
    · subst he
      rw [hg]
      dsimp only
      rw [readMergedGo_dGet_not_mem rest _ _ hnd.1, dGet_dSet_self,
        dGet, if_pos rfl]
    · have hrhs : dGet ((n, kvs) :: rest) name = dGet rest name := by
        rw [dGet, if_neg he]
      rw [hrhs]
      cases hgn : dGet st n with
      | some cur2 =>
        dsimp only
        refine ih _ _ _ hnd.2 ?_
        rw [dGet_dSet_ne _ _ _ _ he]
        exact hg
      | none =>
        dsimp only
        refine ih _ _ _ hnd.2 ?_
        rw [dGet_append, hg]
        rfl

theorem coerceSect_keys : ∀ (kvs : RawSect) (s : Sect),
    coerceSect kvs = .ok s → s.map Prod.fst = kvs.map Prod.fst := by
  intro kvs
  induction kvs with
  | nil =>
    intro s h
    injection h with h
    subst h
    rfl
  | cons p t ih =>
    intro s h
    rw [coerceSect] at h
    cases hck : coerceKV p with
    | error e => rw [hck] at h; cases h
    | ok q =>
      rw [hck] at h
      dsimp only at h
      cases hct : coerceSect t with
      | error e => rw [hct] at h; cases h
      | ok r =>
        rw [hct] at h
        injection h with h
        subst h
        have hq : q.1 = p.1 := by
          rw [coerceKV] at hck
          cases hpv : _parse_value p.2 with
          | error e => rw [hpv] at hck; cases hck
          | ok v =>
            rw [hpv] at hck
            injection hck with hck
            rw [← hck]
        rw [List.map_cons, List.map_cons, hq, ih r hct]

theorem coerceSect_dGet : ∀ (kvs : RawSect) (s : Sect),
    coerceSect kvs = .ok s → ∀ k : Str,
    (dGet kvs k = none → dGet s k = none) ∧
    (∀ raw, dGet kvs k = some raw →
      ∃ v, _parse_value raw = .ok v ∧ dGet s k = some (resolve_path v)) := by
  intro kvs
  induction kvs with
  | nil =>
    intro s h k
    injection h with h
    subst h
    exact ⟨fun _ => rfl, fun raw hr => by cases hr⟩
  | cons p t ih =>
    intro s h k
    obtain ⟨k₁, raw₁⟩ := p
    rw [coerceSect] at h
    cases hck : coerceKV (k₁, raw₁) with
    | error e => rw [hck] at h; cases h
    | ok q =>
      rw [hck] at h
      dsimp only at h
      cases hct : coerceSect t with
      | error e => rw [hct] at h; cases h
      | ok r =>
        rw [hct] at h
        injection h with h
        subst h
        rw [coerceKV] at hck
        cases hpv : _parse_value raw₁ with
        | error e => rw [hpv] at hck; cases hck
        | ok v =>
          rw [hpv] at hck
          injection hck with hck
          subst hck
          by_cases hk : k₁ = k
          · subst hk
            constructor
            · intro hn
              rw [dGet, if_pos rfl] at hn
              cases hn
            · intro raw hr
              rw [dGet, if_pos rfl] at hr
              injection hr with hr
              subst hr
              exact ⟨v, hpv, by rw [dGet]; dsimp only; rw [if_pos rfl]⟩
          · constructor
            · intro hn
              rw [dGet, if_neg hk] at hn
              have := (ih r hct k).1 hn
              rw [dGet]
              dsimp only
              rw [if_neg hk]
              exact this
            · intro raw hr
              rw [dGet, if_neg hk] at hr
              obtain ⟨v2, hv2, hg2⟩ := (ih r hct k).2 raw hr
              refine ⟨v2, hv2, ?_⟩
              rw [dGet]
              dsimp only
              rw [if_neg hk]
              exact hg2

theorem buildSections_keys (ovr : Overrides) : ∀ (ps : List (Str × RawSect))
    (secs : List (Str × Sect)), buildSections ovr ps = .ok secs →
    secs.map Prod.fst = ps.map Prod.fst := by
  intro ps
  induction ps with
  | nil =>
    intro secs h
    injection h with h
    subst h
    rfl
  | cons sec rest ih =>
    obtain ⟨name, kvs⟩ := sec
    intro secs h
    rw [buildSections] at h
    cases hcs : coerceSect kvs with
    | error e => rw [hcs] at h; cases h
    | ok s =>
      rw [hcs] at h
      dsimp only at h
      cases hbs : buildSections ovr rest with
      | error e => rw [hbs] at h; cases h
      | ok r =>
        rw [hbs] at h
        injection h with h
        subst h
        rw [List.map_cons, List.map_cons, ih r hbs]

theorem buildSections_dGet (ovr : Overrides) : ∀ (ps : List (Str × RawSect))
    (secs : List (Str × Sect)), buildSections ovr ps = .ok secs →
    ∀ name kvs, dGet ps name = some kvs →
    ∃ s, coerceSect kvs = .ok s ∧ dGet secs name = some (applyOvr ovr name s) := by
  intro ps
  induction ps with
  | nil =>
    intro secs h name kvs hg
    cases hg
  | cons sec rest ih =>
    obtain ⟨n, kvs₁⟩ := sec
    intro secs h name kvs hg
    rw [buildSections] at h
    cases hcs : coerceSect kvs₁ with
    | error e => rw [hcs] at h; cases h
    | ok s =>
      rw [hcs] at h
      dsimp only at h
      cases hbs : buildSections ovr rest with
      | error e => rw [hbs] at h; cases h
      | ok r =>
        rw [hbs] at h
        injection h with h
        subst h
        by_cases hk : n = name
        · subst hk
          rw [dGet, if_pos rfl] at hg
          injection hg with hg
          subst hg
          exact ⟨s, hcs, by rw [dGet, if_pos rfl]⟩
        · rw [dGet, if_neg hk] at hg
          obtain ⟨s2, hs2, hg2⟩ := ih r hbs name kvs hg
          refine ⟨s2, hs2, ?_⟩
          rw [dGet, if_neg hk]
          exact hg2

theorem loadConfig_ok_inv (fn : Str) (file : CfgFile) (ov : Option (List Str))
    (o : Options) (h : loadConfig fn file ov = .ok o) :
    ∃ ps ovr secs,
      readMerged file = .ok ps ∧
      ovrStep ov = .ok ovr ∧
      checkSections (ps.map Prod.fst) = .ok () ∧
      buildSections ovr ps = .ok secs ∧
      trainSanity fn (((dGet secs (chars "train")).getD []).map Prod.fst) = .ok () ∧
      o = ⟨fn, ps.map Prod.fst, secs⟩ := by
  unfold loadConfig at h
  cases h1 : readMerged file with
  | error e => rw [h1] at h; cases h
  | ok ps =>
    rw [h1] at h
    dsimp only at h
    cases h2 : ovrStep ov with
    | error e => rw [h2] at h; cases h
    | ok ovr =>
      rw [h2] at h
      dsimp only at h
      cases h3 : checkSections (ps.map Prod.fst) with
      | error e => rw [h3] at h; cases h
      | ok u =>
        rw [h3] at h
        dsimp only at h
        cases h4 : buildSections ovr ps with
        | error e => rw [h4] at h; cases h
        | ok secs =>
          rw [h4] at h
          dsimp only at h
          cases h5 : trainSanity fn (((dGet secs (chars "train")).getD []).map Prod.fst) with
          | error e => rw [h5] at h; cases h
          | ok u2 =>
            rw [h5] at h
            dsimp only at h
            injection h with h
            cases u
            exact ⟨ps, ovr, secs, rfl, rfl, h3, h4, h5, h.symm⟩

theorem readMerged_ok_inv (file : CfgFile) (ps : List (Str × RawSect))
    (h : readMerged file = .ok ps) :
    nodupKeys (file.map Prod.fst) = true ∧
    ps = readMergedGo [(chars "train", defaultsAsStrs)] file := by
  unfold readMerged at h
  by_cases h1 : nodupKeys (file.map Prod.fst) = true
  · rw [h1] at h
    simp only [Bool.not_true, Bool.false_eq_true, if_false] at h
    by_cases h2 : (file.all fun sec => nodupKeys ((lowKV sec.2).map Prod.fst)) = true
    · rw [h2] at h
      simp only [Bool.not_true, Bool.false_eq_true, if_false] at h
      injection h with h
      exact ⟨h1, h.symm⟩
    · rw [Bool.not_eq_true] at h2
      rw [h2] at h
      simp only [Bool.not_false, if_true] at h
      cases h
  · rw [Bool.not_eq_true] at h1
    rw [h1] at h
    simp only [Bool.not_false, if_true] at h
    cases h

/-! ### Claim C1: override beats file beats default -/

/-- C1: when the configuration file defines a key in `[train]` and the
override list carries an entry for the same section and key, the resolved
value exposed for that key is the override's coerced value — the override
overlay runs after both the defaults read and the file read. -/
theorem C1_override_wins (fn : Str) (file : CfgFile) (ovl : List Str)
    (o : Options) (m : Overrides) (od : List (Str × Value)) (k : Str)
    (v : Value) (kvs : RawSect)
    (hload : loadConfig fn file (some ovl) = .ok o)
    (hpo : parse_overrides ovl = .ok m)
    (hfile : dGet file (chars "train") = some kvs)
    (hkey : k ∈ (lowKV kvs).map Prod.fst)
    (hsec : dGet m (chars "train") = some od)
    (hval : dGet od k = some v) :
    ∃ t, dGet o.psections (chars "train") = some t ∧ dGet t k = some v := by
  obtain ⟨ps, ovr, secs, h1, h2, h3, h4, h5, ho⟩ :=
    loadConfig_ok_inv fn file (some ovl) o hload
  have h2' : parse_overrides ovl = .ok ovr := h2
  have hovr : ovr = m := by
    rw [hpo] at h2'
    injection h2' with h2'
    exact h2'.symm
  subst hovr
  obtain ⟨hnd, hps⟩ := readMerged_ok_inv file ps h1
  have hinit : dGet [(chars "train", defaultsAsStrs)] (chars "train") =
      some defaultsAsStrs := by
    rw [dGet, if_pos rfl]
  have hmt : dGet ps (chars "train") =
      some (mergeSect defaultsAsStrs (lowKV kvs)) := by
    rw [hps, readMergedGo_dGet_mem file _ _ _ hnd hinit, hfile]
  obtain ⟨s, hcs, hgs⟩ := buildSections_dGet ovr ps secs h4 (chars "train") _ hmt
  have hnodupod : nodupKeys (od.map Prod.fst) = true :=
    (parse_overrides_inv ovl ovr hpo).2 (chars "train", od) (dGet_mem _ _ _ hsec)
  refine ⟨applyOvr ovr (chars "train") s, ?_, ?_⟩
  · rw [ho]
    exact hgs
  · rw [applyOvr, hsec]
    exact foldl_dSet_of_get od s k v hnodupod hval

/-! ### Claim C5: omitted keys fall back to coerced defaults -/

/-- C5: for every key of the canonical defaults table, loading a file
whose `[train]` section omits that key (with no overrides) resolves the
key to its default, the default having round-tripped through `str()` and
the same coercion as file values (`resolve_path` after `_parse_value`). -/
theorem C5_defaults_survive (fn : Str) (file : CfgFile) (o : Options)
    (k : Str) (d : Value)
    (hkd : (k, d) ∈ TRAIN_DEFAULTS)
    (hload : loadConfig fn file none = .ok o)
    (homit : ∀ kvs, dGet file (chars "train") = some kvs →
      k ∉ (lowKV kvs).map Prod.fst) :
    ∃ t v, dGet o.psections (chars "train") = some t ∧
      _parse_value (pyStr d) = .ok v ∧
      dGet t k = some (resolve_path v) := by
  obtain ⟨ps, ovr, secs, h1, h2, h3, h4, h5, ho⟩ :=
    loadConfig_ok_inv fn file none o hload
  have hovr : ovr = [] := by
    have h2' : (.ok [] : Except PyExc Overrides) = .ok ovr := h2
    injection h2' with h2'
    exact h2'.symm
  subst hovr
  obtain ⟨hnd, hps⟩ := readMerged_ok_inv file ps h1
  have hinit : dGet [(chars "train", defaultsAsStrs)] (chars "train") =
      some defaultsAsStrs := by
    rw [dGet, if_pos rfl]
  have hdef : dGet defaultsAsStrs k = some (pyStr d) := by
    rw [defaultsAsStrs, dGet_map_val,
      dGet_of_mem_nodup TRAIN_DEFAULTS k d (by decide) hkd]
    rfl
  have hmerged := readMergedGo_dGet_mem file _ (chars "train") _ hnd hinit
  rw [← hps] at hmerged
  cases hft : dGet file (chars "train") with
  | some kvs =>
    rw [hft] at hmerged
    dsimp only at hmerged
    obtain ⟨s, hcs, hgs⟩ := buildSections_dGet [] ps secs h4 (chars "train") _ hmerged
    have hkmerged : dGet (mergeSect defaultsAsStrs (lowKV kvs)) k =
        some (pyStr d) := by
      rw [mergeSect, foldl_dSet_of_not_mem _ _ _ (homit kvs hft)]
      exact hdef
    obtain ⟨v, hv, hgv⟩ := (coerceSect_dGet _ s hcs k).2 (pyStr d) hkmerged
    refine ⟨s, v, ?_, hv, hgv⟩
    rw [ho]
    have happ : applyOvr [] (chars "train") s = s := rfl
    rw [← happ]
    exact hgs
  | none =>
    rw [hft] at hmerged
    dsimp only at hmerged
    obtain ⟨s, hcs, hgs⟩ := buildSections_dGet [] ps secs h4 (chars "train") _ hmerged
    obtain ⟨v, hv, hgv⟩ := (coerceSect_dGet _ s hcs k).2 (pyStr d) hdef
    refine ⟨s, v, ?_, hv, hgv⟩
    rw [ho]
    have happ : applyOvr [] (chars "train") s = s := rfl
    rw [← happ]
    exact hgs

/-- Concrete configuration file for the C1 witness. -/
def fileC1 : CfgFile :=
  [(chars "train", [(chars "batch_size", chars "64")]), (chars "model", [])]

/-- The object loaded from `fileC1` with the batch-size override. -/
def cfgC1 : Options :=
  match loadConfig (chars "f.conf") fileC1 (some [chars "train.batch_size:128"]) with
  | .ok o => o
  | .error _ => ⟨[], [], []⟩

/-- Witness for `C1_override_wins`: default 32, file value 64, override
128 — the resolved value is 128. -/
theorem C1_witness :
    loadConfig (chars "f.conf") fileC1 (some [chars "train.batch_size:128"]) =
      .ok cfgC1 ∧
    ∃ t, dGet cfgC1.psections (chars "train") = some t ∧
      dGet t (chars "batch_size") = some (Value.int 128) := by
  refine ⟨by rfl, ?_⟩
  exact C1_override_wins (chars "f.conf") fileC1 [chars "train.batch_size:128"]
    cfgC1 [(chars "train", [(chars "batch_size", Value.int 128)])]
    [(chars "batch_size", Value.int 128)] (chars "batch_size") (Value.int 128)
    [(chars "batch_size", chars "64")]
    (by rfl) (by rfl) (by rfl) (by decide) (by rfl) (by rfl)

/-- Concrete configuration file for the C5 witness: its `[train]` section
is absent entirely, so every default key is omitted. -/
def fileC5 : CfgFile := [(chars "model", [])]

/-- The object loaded from `fileC5`. -/
def cfgC5 : Options :=
  match loadConfig (chars "f.conf") fileC5 none with
  | .ok o => o
  | .error _ => ⟨[], [], []⟩

/-- Witness for `C5_defaults_survive` at the key chars "batch_size" with
default 32. -/
theorem C5_witness :
    (chars "batch_size", Value.int 32) ∈ TRAIN_DEFAULTS ∧
    loadConfig (chars "f.conf") fileC5 none = .ok cfgC5 ∧
    ∃ t v, dGet cfgC5.psections (chars "train") = some t ∧
      _parse_value (pyStr (Value.int 32)) = .ok v ∧
      dGet t (chars "batch_size") = some (resolve_path v) := by
  have hmem : (chars "batch_size", Value.int 32) ∈ TRAIN_DEFAULTS := by
    repeat first
      | exact List.mem_cons_self _ _
      | apply List.mem_cons_of_mem
  refine ⟨hmem, by rfl, ?_⟩
  exact C5_defaults_survive (chars "f.conf") fileC5 cfgC5
    (chars "batch_size") (Value.int 32) hmem (by rfl)
    (fun kvs h => by rw [show dGet fileC5 (chars "train") = Option.none from rfl] at h; cases h)

/-! ### Claim C6: unknown-key diagnostics -/

theorem mkUnknownMsg_parts (fn k : Str) :
    fn <+: mkUnknownMsg fn k ∧ k <:+: mkUnknownMsg fn k ∧
    ∀ m mr, getCloseMatches1 k defKeys = m :: mr →
      m <:+: mkUnknownMsg fn k := by
  unfold mkUnknownMsg
  cases hm : getCloseMatches1 k defKeys with
  | nil =>
    dsimp only
    refine ⟨⟨chars ":train: Unknown option " ++ squo ++ k ++ squo ++ chars ".",
      by simp [List.append_assoc]⟩,
      ⟨fn ++ chars ":train: Unknown option " ++ squo, squo ++ chars ".",
      by simp [List.append_assoc]⟩, ?_⟩
    intro m mr hmr
    cases hmr
  | cons m0 mr0 =>
    dsimp only
    refine ⟨⟨chars ":train: Unknown option " ++ squo ++ k ++ squo ++ chars "." ++
        (chars "  Did you mean " ++ squo ++ m0 ++ squo ++ chars " ?"),
      by simp [List.append_assoc]⟩,
      ⟨fn ++ chars ":train: Unknown option " ++ squo,
        squo ++ chars "." ++
          (chars "  Did you mean " ++ squo ++ m0 ++ squo ++ chars " ?"),
      by simp [List.append_assoc]⟩, ?_⟩
    intro m mr hmr
    injection hmr with h1 _
    subst h1
    exact ⟨fn ++ chars ":train: Unknown option " ++ squo ++ k ++ squo ++
        chars "." ++ chars "  Did you mean " ++ squo,
      squo ++ chars " ?", by simp [List.append_assoc]⟩

/-- C6: the `[train]` unknown-key validation collects one diagnostic per
unknown key — each naming the file and the key, plus the closest matching
known key when `get_close_matches` offers one — and only then terminates
the process with a non-zero status (the `exitNonzero` error carries every
printed message); with zero unknown keys the pass does not abort. -/
theorem C6_unknown_key_validation (fn : Str) (tks : List Str)
    (hnd : nodupKeys tks = true) :
    (pyInvalid tks = [] → trainSanity fn tks = .ok ()) ∧
    (pyInvalid tks ≠ [] →
      trainSanity fn tks =
        .error (.exitNonzero ((pyInvalid tks).map (mkUnknownMsg fn))) ∧
      ∀ k ∈ pyInvalid tks,
        mkUnknownMsg fn k ∈ (pyInvalid tks).map (mkUnknownMsg fn) ∧
        fn <+: mkUnknownMsg fn k ∧
        k <:+: mkUnknownMsg fn k ∧
        ∀ m mr, getCloseMatches1 k defKeys = m :: mr →
          m <:+: mkUnknownMsg fn k) := by
  constructor
  · intro hpi
    unfold trainSanity
    rw [hnd, hpi]
    rfl
  · intro hpi
    constructor
    · unfold trainSanity
      rw [hnd]
      cases hp : pyInvalid tks with
      | nil => exact absurd hp hpi
      | cons a t => rfl
    · intro k hk
      refine ⟨List.mem_map_of_mem _ hk, mkUnknownMsg_parts fn k⟩

/-- Witness for `C6_unknown_key_validation`: the spec's example, a typo
chars "lr_decya" of chars "lr_decay". -/
theorem C6_witness :
    nodupKeys [chars "lr_decya"] = true ∧
    pyInvalid [chars "lr_decya"] ≠ [] ∧
    trainSanity (chars "cfg.conf") [chars "lr_decya"] =
      .error (.exitNonzero
        ((pyInvalid [chars "lr_decya"]).map (mkUnknownMsg (chars "cfg.conf")))) ∧
    chars "lr_decay" <:+: mkUnknownMsg (chars "cfg.conf") (chars "lr_decya") := by
  have h := C6_unknown_key_validation (chars "cfg.conf") [chars "lr_decya"]
    (by decide)
  have h2 := h.2 (by decide)
  have h3 := h2.2 (chars "lr_decya") (by decide)
  exact ⟨by decide, by decide, h2.1,
    h3.2.2.2 (chars "lr_decay") [] (by decide)⟩

/-! ### Claim C7: section-name validation -/

/-- C7 counterexample.  The claim says a file with `[train]` holding
`foo = 1` plus `[model]` loads successfully; in the code the section-name
checks pass but the load then aborts anyway: `foo` is not in the defaults
table, so the unknown-key validator prints its diagnostic and the process
exits non-zero. -/
theorem C7_counterexample :
    loadConfig (chars "f.conf")
      [(chars "train", [(chars "foo", chars "1")]), (chars "model", [])]
      none =
      .error (.exitNonzero
        [chars "f.conf:train: Unknown option " ++ squo ++ chars "foo" ++
          squo ++ chars "."]) := by
  rfl

/-- C7 as amended: a file whose `[train]` section holds only recognized
keys (here `batch_size = 64`) together with `[model]` and no `tasks.*`
section loads successfully — tasks sections are optional — whereas the
same file with an extra top-level section `[other]` not prefixed
`tasks.` fails fatally at load with the section-name assertion. -/
theorem C7_amended_sections :
    (loadConfig (chars "f.conf")
      [(chars "train", [(chars "batch_size", chars "64")]),
       (chars "model", [])] none).isOk = true ∧
    loadConfig (chars "f.conf")
      [(chars "train", [(chars "batch_size", chars "64")]),
       (chars "model", []), (chars "other", [])] none =
      .error (.assertErr
        (chars "Configuration file should include train, model and tasks.* sections.")) := by
  exact ⟨by rfl, by rfl⟩

/-! ### Claim C8: serialize/deserialize round trip -/

theorem loadConfig_sections_inv (fn : Str) (file : CfgFile)
    (ov : Option (List Str)) (o : Options)
    (h : loadConfig fn file ov = .ok o) :
    o.psections.map Prod.fst = o.sections ∧ nodupKeys o.sections = true := by
  obtain ⟨ps, ovr, secs, h1, h2, h3, h4, h5, ho⟩ :=
    loadConfig_ok_inv fn file ov o h
  obtain ⟨hnd, hps⟩ := readMerged_ok_inv file ps h1
  subst ho
  constructor
  · exact buildSections_keys ovr ps secs h4
  · show nodupKeys (ps.map Prod.fst) = true
    rw [hps]
    exact readMergedGo_nodup file _ (by decide)

theorem fromDictSecs_exact (data : List (Str × Sect)) :
    ∀ l : List (Str × Sect), (∀ p ∈ l, dGet data p.1 = some p.2) →
    fromDictSecs data (l.map Prod.fst) = .ok l := by
  intro l
  induction l with
  | nil => intro _; rfl
  | cons p t ih =>
    intro h
    rw [List.map_cons, fromDictSecs, h p (List.mem_cons_self _ _)]
    dsimp only
    rw [ih (fun q hq => h q (List.mem_cons_of_mem _ hq))]

/-- C8: serializing a successfully loaded configuration and
reconstructing it with no overrides reproduces an object with equal
resolved per-section mappings (and an unchanged serialized dict). -/
theorem C8_roundtrip (fn : Str) (file : CfgFile) (ov : Option (List Str))
    (o : Options) (hload : loadConfig fn file ov = .ok o) :
    ∃ o2, from_dict (to_dict o) none = .ok (o2, to_dict o) ∧
      o2.psections = o.psections ∧ o2.sections = o.sections ∧
      o2.filename = o.filename := by
  obtain ⟨hkeys, hnd⟩ := loadConfig_sections_inv fn file ov o hload
  refine ⟨⟨o.filename, o.sections, o.psections⟩, ?_, rfl, rfl, rfl⟩
  unfold from_dict to_dict
  dsimp only
  have hfs : fromDictSecs o.psections o.sections = .ok o.psections := by
    rw [← hkeys]
    refine fromDictSecs_exact o.psections o.psections (fun p hp => ?_)
    refine dGet_of_mem_nodup _ _ _ ?_ ?_
    · rw [hkeys]; exact hnd
    · obtain ⟨a, b⟩ := p
      exact hp
  rw [hfs]

/-- Concrete configuration file for the C8 witness. -/
def fileC8 : CfgFile :=
  [(chars "model", [(chars "layers", chars "4")]),
   (chars "tasks.a", [(chars "x", chars "0.5")])]

/-- The object loaded from `fileC8`. -/
def cfgC8 : Options :=
  match loadConfig (chars "f.conf") fileC8 none with
  | .ok o => o
  | .error _ => ⟨[], [], []⟩

/-- Witness for `C8_roundtrip` on the configuration loaded from
`fileC8`. -/
theorem C8_witness :
    loadConfig (chars "f.conf") fileC8 none = .ok cfgC8 ∧
    ∃ o2, from_dict (to_dict cfgC8) none = .ok (o2, to_dict cfgC8) ∧
      o2.psections = cfgC8.psections ∧ o2.sections = cfgC8.sections ∧
      o2.filename = cfgC8.filename := by
  refine ⟨by rfl, ?_⟩
  exact C8_roundtrip (chars "f.conf") fileC8 none cfgC8 (by rfl)

/-! ### Claim C9: hierarchical parent lookup -/

theorem splitCh_no_sep (c : Char) (s : Str) (h : countCh c s = 0) :
    splitCh c s = [s] := by
  induction s with
  | nil => rfl
  | cons x xs ih =>
    rw [countCh, List.countP_cons] at h
    have hx : ¬ x = c := by
      intro he
      subst he
      simp at h
    have hxs : countCh c xs = 0 := by
      rw [countCh]
      omega
    simp only [splitCh]
    rw [if_neg hx, ih hxs]

theorem splitCh_append_cons (c : Char) (q r : Str) (hq : countCh c q = 0) :
    splitCh c (q ++ c :: r) = q :: splitCh c r := by
  induction q with
  | nil => simp [splitCh]
  | cons x xs ih =>
    rw [countCh, List.countP_cons] at hq
    have hx : ¬ x = c := by
      intro he
      subst he
      simp at hq
    have hxs : countCh c xs = 0 := by
      rw [countCh]
      omega
    rw [List.cons_append]
    simp only [splitCh]
    rw [if_neg hx, ih hxs]

theorem checkSections_ok_nest (secNames : List Str)
    (h : checkSections secNames = .ok ()) :
    ∀ n ∈ secNames, countCh '.' n < 2 := by
  by_cases hc : (secNames.all fun s => decide (countCh '.' s < 2)) = true
  · intro n hn
    exact of_decide_eq_true (List.all_eq_true.mp hc n hn)
  · exfalso
    unfold checkSections at h
    rw [Bool.not_eq_true] at hc
    by_cases h1 : decide (chars "train" ∈ secNames) = true
    · rw [h1] at h
      simp only [Bool.not_true, Bool.false_eq_true, if_false] at h
      by_cases h2 : decide (chars "model" ∈ removeFirst secNames (chars "train")) = true
      · rw [h2] at h
        simp only [Bool.not_true, Bool.false_eq_true, if_false] at h
        by_cases h3 : ((removeFirst (removeFirst secNames (chars "train"))
            (chars "model")).all fun s => strStarts (chars "tasks.") s) = true
        · rw [h3] at h
          simp only [Bool.not_true, Bool.false_eq_true, if_false] at h
          rw [hc] at h
          simp at h
        · rw [Bool.not_eq_true] at h3
          rw [h3] at h
          simp at h
      · rw [Bool.not_eq_true] at h2
        rw [h2] at h
        simp at h
    · rw [Bool.not_eq_true] at h1
      rw [h1] at h
      simp at h

/-- C9: on a loaded configuration, looking up a name that is not a stored
section returns the parent-prefix view: the mapping holding, for each
stored section named `name.suffix`, the suffix paired with that child
section's mapping; when no stored section starts with the name followed
by a dot, the result is the empty mapping (the lookup is total — no
exception escapes). -/
theorem C9_parent_lookup (fn : Str) (file : CfgFile) (ov : Option (List Str))
    (o : Options) (q : Str)
    (hload : loadConfig fn file ov = .ok o)
    (hmiss : dGet o.psections q = none) :
    ∃ r, getitem o q = .inr r ∧
      (∀ suf s, (suf, s) ∈ r ↔ (q ++ '.' :: suf, s) ∈ o.psections) ∧
      ((∀ n ∈ o.sections, strStarts (q ++ ['.']) n = false) →
        getitem o q = .inr []) := by
  obtain ⟨hkeys, _⟩ := loadConfig_sections_inv fn file ov o hload
  have hnest : ∀ n ∈ o.sections, countCh '.' n < 2 := by
    obtain ⟨ps, ovr, secs, h1, h2, h3, h4, h5, ho⟩ :=
      loadConfig_ok_inv fn file ov o hload
    intro n hn
    refine checkSections_ok_nest (ps.map Prod.fst) h3 n ?_
    rw [ho] at hn
    exact hn
  refine ⟨_, by rw [getitem, hmiss], ?_, ?_⟩
  · intro suf s
    rw [List.mem_filterMap]
    constructor
    · rintro ⟨p, hp, hf⟩
      obtain ⟨n, t⟩ := p
      by_cases hst : strStarts (q ++ ['.']) n = true
      · rw [if_pos hst] at hf
        injection hf with hf
        injection hf with hf1 hf2
        subst hf2
        obtain ⟨tail, htail⟩ := List.isPrefixOf_iff_prefix.mp hst
        have hn : n = q ++ '.' :: tail := by
          rw [← htail, List.append_assoc]
          rfl
        have hcnt : countCh '.' n < 2 := by
          refine hnest n ?_
          rw [← hkeys]
          exact List.mem_map_of_mem Prod.fst hp
        have hq0 : countCh '.' q = 0 ∧ countCh '.' tail = 0 := by
          rw [hn, countCh, List.countP_append, List.countP_cons] at hcnt
          simp at hcnt
          rw [countCh, countCh]
          omega
        have hlast : (splitCh '.' n).getLastD [] = tail := by
          rw [hn, splitCh_append_cons '.' q tail hq0.1,
            splitCh_no_sep '.' tail hq0.2]
          rfl
        rw [hlast] at hf1
        subst hf1
        rw [← hn]
        exact hp
      · rw [if_neg hst] at hf
        cases hf
    · intro hmem
      refine ⟨(q ++ '.' :: suf, s), hmem, ?_⟩
      have hst : strStarts (q ++ ['.']) (q ++ '.' :: suf) = true := by
        refine List.isPrefixOf_iff_prefix.mpr ⟨suf, ?_⟩
        rw [List.append_assoc]
        rfl
      rw [if_pos hst]
      have hcnt : countCh '.' (q ++ '.' :: suf) < 2 := by
        refine hnest _ ?_
        rw [← hkeys]
        exact List.mem_map_of_mem Prod.fst hmem
      have hq0 : countCh '.' q = 0 ∧ countCh '.' suf = 0 := by
        rw [countCh, List.countP_append, List.countP_cons] at hcnt
        simp at hcnt
        rw [countCh, countCh]
        omega
      rw [splitCh_append_cons '.' q suf hq0.1, splitCh_no_sep '.' suf hq0.2]
      rfl
  · intro hnone
    rw [getitem, hmiss]
    refine congrArg Sum.inr (List.filterMap_eq_nil_iff.mpr ?_)
    intro p hp
    have hpf : strStarts (q ++ ['.']) p.1 = false := by
      refine hnone p.1 ?_
      rw [← hkeys]
      exact List.mem_map_of_mem Prod.fst hp
    rw [if_neg ?_]
    rw [hpf]
    exact Bool.false_ne_true

/-- Concrete configuration file for the C9 witness: two task sections. -/
def fileC9 : CfgFile :=
  [(chars "model", []), (chars "tasks.a", [(chars "x", chars "1")]),
   (chars "tasks.b", [])]

/-- The object loaded from `fileC9`. -/
def cfgC9 : Options :=
  match loadConfig (chars "f.conf") fileC9 none with
  | .ok o => o
  | .error _ => ⟨[], [], []⟩

/-- Witness for `C9_parent_lookup` at the parent name chars "tasks". -/
theorem C9_witness :
    loadConfig (chars "f.conf") fileC9 none = .ok cfgC9 ∧
    dGet cfgC9.psections (chars "tasks") = none ∧
    ∃ r, getitem cfgC9 (chars "tasks") = .inr r ∧
      (∀ suf s, (suf, s) ∈ r ↔
        (chars "tasks" ++ '.' :: suf, s) ∈ cfgC9.psections) ∧
      ((∀ n ∈ cfgC9.sections, strStarts (chars "tasks" ++ ['.']) n = false) →
        getitem cfgC9 (chars "tasks") = .inr []) := by
  refine ⟨by rfl, by rfl, ?_⟩
  exact C9_parent_lookup (chars "f.conf") fileC9 none cfgC9 (chars "tasks")
    (by rfl) (by rfl)

/-! ### Claim C10: from_dict mutates the caller's dict -/

theorem fromDictOvrGo_not_mem (ovr : Overrides) :
    ∀ (data data' : List (Str × Sect)) (sec : Str),
    sec ∉ ovr.map Prod.fst →
    fromDictOvrGo data ovr = .ok data' →
    dGet data' sec = dGet data sec := by
  induction ovr with
  | nil =>
    intro data data' sec _ h
    injection h with h
    subst h
    rfl
  | cons p rest ih =>
    obtain ⟨s₁, od₁⟩ := p
    intro data data' sec hs h
    simp only [List.map_cons, List.mem_cons, not_or] at hs
    rw [fromDictOvrGo] at h
    cases hg : dGet data s₁ with
    | none => rw [hg] at h; cases h
    | some cur =>
      rw [hg] at h
      dsimp only at h
      rw [ih _ _ _ hs.2 h]
      exact dGet_dSet_ne _ _ _ _ (fun he => hs.1 he.symm)

theorem fromDictOvrGo_spec (ovr : Overrides) :
    ∀ (data data' : List (Str × Sect)),
    nodupKeys (ovr.map Prod.fst) = true →
    fromDictOvrGo data ovr = .ok data' →
    ∀ sec od, dGet ovr sec = some od →
    ∃ cur, dGet data sec = some cur ∧
      dGet data' sec = some (od.foldl (fun c p => dSet c p.1 p.2) cur) := by
  induction ovr with
  | nil =>
    intro data data' _ _ sec od hg
    cases hg
  | cons p rest ih =>
    obtain ⟨s₁, od₁⟩ := p
    intro data data' hnd h sec od hg
    rw [List.map_cons, nodupKeys_cons_iff] at hnd
    rw [fromDictOvrGo] at h
    cases hgd : dGet data s₁ with
    | none => rw [hgd] at h; cases h
    | some cur₁ =>
      rw [hgd] at h
      dsimp only at h
      by_cases hs : s₁ = sec
      · subst hs
        rw [dGet, if_pos rfl] at hg
        injection hg with hg
        subst hg
        refine ⟨cur₁, hgd, ?_⟩
        rw [fromDictOvrGo_not_mem rest _ _ s₁ hnd.1 h, dGet_dSet_self]
      · rw [dGet, if_neg hs] at hg
        obtain ⟨cur, hcur, hres⟩ := ih _ _ hnd.2 h sec od hg
        rw [dGet_dSet_ne _ _ _ _ hs] at hcur
        exact ⟨cur, hcur, hres⟩

theorem fromDictSecs_dGet (data : List (Str × Sect)) :
    ∀ (names : List Str) (ps : List (Str × Sect)),
    fromDictSecs data names = .ok ps →
    ∀ n ∈ names, dGet ps n = dGet data n := by
  intro names
  induction names with
  | nil =>
    intro ps _ n hn
    cases hn
  | cons s rest ih =>
    intro ps h n hn
    rw [fromDictSecs] at h
    cases hg : dGet data s with
    | none => rw [hg] at h; cases h
    | some t =>
      rw [hg] at h
      dsimp only at h
      cases hr : fromDictSecs data rest with
      | error e => rw [hr] at h; cases h
      | ok r =>
        rw [hr] at h
        injection h with h
        subst h
        by_cases hs : s = n
        · subst hs
          rw [dGet, if_pos rfl, hg]
        · rw [dGet, if_neg hs]
          rcases List.mem_cons.mp hn with he | hm
          · exact absurd he.symm hs
          · exact ih r hr n hm

/-- C10: reconstructing a configuration from a serialized mapping with a
non-empty override list mutates the caller's mapping in place — the
object's sections alias the input dict's section mappings, so after the
call the overridden entries of the caller's dict itself hold the
override values, and the object's lookups agree with the mutated dict on
every serialized section name. -/
theorem C10_from_dict_mutates (d : SerialCfg) (ovl : List Str) (o : Options)
    (d2 : SerialCfg) (ovr : Overrides)
    (hpo : parse_overrides ovl = .ok ovr)
    (hfd : from_dict d (some ovl) = .ok (o, d2)) :
    (∀ sec od k v, dGet ovr sec = some od → dGet od k = some v →
      ∃ inner, dGet d2.data sec = some inner ∧ dGet inner k = some v) ∧
    (∀ n ∈ d.sections, dGet o.psections n = dGet d2.data n) ∧
    d2.filename = d.filename ∧ d2.sections = d.sections := by
  unfold from_dict at hfd
  dsimp only at hfd
  rw [hpo] at hfd
  dsimp only at hfd
  cases hog : fromDictOvrGo d.data ovr with
  | error e => rw [hog] at hfd; cases hfd
  | ok data =>
    rw [hog] at hfd
    dsimp only at hfd
    cases hfs : fromDictSecs data d.sections with
    | error e => rw [hfs] at hfd; cases hfd
    | ok ps =>
      rw [hfs] at hfd
      dsimp only at hfd
      injection hfd with hfd
      injection hfd with hfd1 hfd2
      subst hfd1
      subst hfd2
      refine ⟨?_, ?_, rfl, rfl⟩
      · intro sec od k v hsec hval
        obtain ⟨hndo, hinner⟩ := parse_overrides_inv ovl ovr hpo
        obtain ⟨cur, hcur, hres⟩ :=
          fromDictOvrGo_spec ovr d.data data hndo hog sec od hsec
        refine ⟨od.foldl (fun c p => dSet c p.1 p.2) cur, hres, ?_⟩
        exact foldl_dSet_of_get od cur k v
          (hinner (sec, od) (dGet_mem _ _ _ hsec)) hval
      · intro n hn
        exact fromDictSecs_dGet data d.sections ps hfs n hn

/-- Concrete serialized mapping for the C10 witness. -/
def serialC10 : SerialCfg :=
  ⟨chars "f.conf", [chars "train"],
   [(chars "train", [(chars "batch_size", Value.int 64)])]⟩

/-- The result of reconstructing `serialC10` with a batch-size override. -/
def fdC10 : Except PyExc (Options × SerialCfg) :=
  from_dict serialC10 (some [chars "train.batch_size:128"])

def cfgC10 : Options :=
  match fdC10 with
  | .ok p => p.1
  | .error _ => ⟨[], [], []⟩

def dictC10 : SerialCfg :=
  match fdC10 with
  | .ok p => p.2
  | .error _ => ⟨[], [], []⟩

/-- Witness for `C10_from_dict_mutates`: after reconstruction with the
override, the caller's dict itself holds 128 under (train, batch_size). -/
theorem C10_witness :
    from_dict serialC10 (some [chars "train.batch_size:128"]) =
      .ok (cfgC10, dictC10) ∧
    ∃ inner, dGet dictC10.data (chars "train") = some inner ∧
      dGet inner (chars "batch_size") = some (Value.int 128) := by
  refine ⟨by rfl, ?_⟩
  exact (C10_from_dict_mutates serialC10 [chars "train.batch_size:128"]
    cfgC10 dictC10 [(chars "train", [(chars "batch_size", Value.int 128)])]
    (by rfl) (by rfl)).1 (chars "train")
    [(chars "batch_size", Value.int 128)] (chars "batch_size")
    (Value.int 128) (by rfl) (by rfl)
